import Mathlib

/-!
A shallow embedding of `src/to_uppercase.py`, the helper script of this
repository that rewrites byte-string literals of HTTP header names inside a
generated source file.

Python strings are modelled as `List Char` (a Python `str` is a sequence of
code points).  Every character the script inspects or rewrites is ASCII —
the regex groups only match `[a-zA-Z\-]` resp. `[a-z]` — and on ASCII
characters Python's `str.lower` / `str.upper` per-character maps agree with
Lean's `Char.toLower` / `Char.toUpper`, which we therefore use as the
per-character case maps.
-/

/-- Packing a valid code point into a `Char` and reading it back is the
identity. -/
theorem char_toNat_ofNat {n : Nat} (h : n.isValidChar) : (Char.ofNat n).toNat = n := by
  rw [Char.ofNat, dif_pos h]
  rfl

/-- Characters with equal code points are equal. -/
theorem char_toNat_inj {c d : Char} (h : c.toNat = d.toNat) : c = d := by
  apply Char.ext
  exact congrArg UInt32.mk (BitVec.eq_of_toNat_eq h)

/-- `Char.toLower` on an ASCII capital letter adds 32 to the code point. -/
theorem toLower_of_upper {c : Char} (h1 : 65 ≤ c.toNat) (h2 : c.toNat ≤ 90) :
    (Char.toLower c).toNat = c.toNat + 32 := by
  rw [Char.toLower]
  rw [if_pos ⟨h1, h2⟩]
  exact char_toNat_ofNat (Or.inl (by omega))

/-- `Char.toLower` fixes every character that is not an ASCII capital. -/
theorem toLower_of_not_upper {c : Char} (h : ¬ (65 ≤ c.toNat ∧ c.toNat ≤ 90)) :
    Char.toLower c = c := by
  rw [Char.toLower]
  exact if_neg h

/-- `Char.toUpper` on an ASCII small letter subtracts 32 from the code point. -/
theorem toUpper_of_lower {c : Char} (h1 : 97 ≤ c.toNat) (h2 : c.toNat ≤ 122) :
    (Char.toUpper c).toNat = c.toNat - 32 := by
  rw [Char.toUpper]
  rw [if_pos ⟨h1, h2⟩]
  exact char_toNat_ofNat (Or.inl (by omega))

/-- `Char.toUpper` fixes every character that is not an ASCII small letter. -/
theorem toUpper_of_not_lower {c : Char} (h : ¬ (97 ≤ c.toNat ∧ c.toNat ≤ 122)) :
    Char.toUpper c = c := by
  rw [Char.toUpper]
  exact if_neg h

/-- Lower-casing is idempotent. -/
theorem toLower_toLower (c : Char) : Char.toLower (Char.toLower c) = Char.toLower c := by
  by_cases h : 65 ≤ c.toNat ∧ c.toNat ≤ 90
  · have h1 := toLower_of_upper h.1 h.2
    exact toLower_of_not_upper (by omega)
  · rw [toLower_of_not_upper h, toLower_of_not_upper h]

/-- Upper-casing is idempotent. -/
theorem toUpper_toUpper (c : Char) : Char.toUpper (Char.toUpper c) = Char.toUpper c := by
  by_cases h : 97 ≤ c.toNat ∧ c.toNat ≤ 122
  · have h1 := toUpper_of_lower h.1 h.2
    exact toUpper_of_not_lower (by omega)
  · rw [toUpper_of_not_lower h, toUpper_of_not_lower h]

/-- Lower-casing after upper-casing is plain lower-casing. -/
theorem toLower_toUpper (c : Char) : Char.toLower (Char.toUpper c) = Char.toLower c := by
  by_cases h : 97 ≤ c.toNat ∧ c.toNat ≤ 122
  · have h1 := toUpper_of_lower h.1 h.2
    by_cases h2 : 65 ≤ c.toNat ∧ c.toNat ≤ 90
    · omega
    · rw [toLower_of_not_upper h2]
      apply char_toNat_inj
      rw [toLower_of_upper (by omega) (by omega), h1]
      omega
  · rw [toUpper_of_not_lower h]

/-- A character whose lower-casing is not an ASCII small letter was fixed. -/
theorem eq_of_toLower_not_small {c d : Char} (hd : ¬ (97 ≤ d.toNat ∧ d.toNat ≤ 122))
    (h : Char.toLower c = d) : c = d := by
  by_cases hc : 65 ≤ c.toNat ∧ c.toNat ≤ 90
  · have h1 := toLower_of_upper hc.1 hc.2
    rw [h] at h1
    omega
  · rw [← h]
    exact (toLower_of_not_upper hc).symm

/-- Character class of the regex `[a-zA-Z\-]` in `header_matcher`. -/
def isHeadChar (c : Char) : Bool :=
  (97 ≤ c.toNat && c.toNat ≤ 122) || (65 ≤ c.toNat && c.toNat ≤ 90) || (c.toNat == 45)

/-- ASCII letters. -/
def isAsciiAlpha (c : Char) : Bool :=
  (65 ≤ c.toNat && c.toNat ≤ 90) || (97 ≤ c.toNat && c.toNat ≤ 122)

/-- Python's whitespace set, as used by `str.split()` and `str.strip()`
(only ASCII whitespace occurs in this program). -/
def isPyWs (c : Char) : Bool :=
  c == ' ' || c == '\t' || c == '\n' || c == '\r' || c == '\x0b' || c == '\x0c'

theorem isHeadChar_iff {c : Char} : isHeadChar c = true ↔
    (97 ≤ c.toNat ∧ c.toNat ≤ 122) ∨ (65 ≤ c.toNat ∧ c.toNat ≤ 90) ∨ c.toNat = 45 := by
  simp only [isHeadChar, Bool.or_eq_true, Bool.and_eq_true, decide_eq_true_eq, beq_iff_eq]
  tauto

theorem isAsciiAlpha_iff {c : Char} : isAsciiAlpha c = true ↔
    (65 ≤ c.toNat ∧ c.toNat ≤ 90) ∨ (97 ≤ c.toNat ∧ c.toNat ≤ 122) := by
  simp [isAsciiAlpha]

theorem isPyWs_iff {c : Char} : isPyWs c = true ↔
    (c = ' ' ∨ c = '\t' ∨ c = '\n' ∨ c = '\r' ∨ c = '\x0b' ∨ c = '\x0c') := by
  simp only [isPyWs, Bool.or_eq_true, beq_iff_eq]
  tauto

/-- The head-character class is stable under lower-casing. -/
theorem isHeadChar_toLower (c : Char) : isHeadChar (Char.toLower c) = isHeadChar c := by
  rw [Bool.eq_iff_iff, isHeadChar_iff, isHeadChar_iff]
  by_cases h : 65 ≤ c.toNat ∧ c.toNat ≤ 90
  · rw [toLower_of_upper h.1 h.2]
    omega
  · rw [toLower_of_not_upper h]

/-- An ASCII letter is not Python whitespace. -/
theorem not_ws_of_alpha {c : Char} (h : isAsciiAlpha c = true) : isPyWs c = false := by
  cases hw : isPyWs c
  · rfl
  · rcases isPyWs_iff.mp hw with h1 | h1 | h1 | h1 | h1 | h1 <;> subst h1 <;>
      exact absurd h (by decide)

/-- An ASCII letter is in the head-character class. -/
theorem headChar_of_alpha {c : Char} (h : isAsciiAlpha c = true) : isHeadChar c = true := by
  rw [isAsciiAlpha_iff] at h
  rw [isHeadChar_iff]
  omega

/-- Case maps preserve ASCII-letter-hood. -/
theorem alpha_toLower (c : Char) : isAsciiAlpha (Char.toLower c) = isAsciiAlpha c := by
  rw [Bool.eq_iff_iff, isAsciiAlpha_iff, isAsciiAlpha_iff]
  by_cases h : 65 ≤ c.toNat ∧ c.toNat ≤ 90
  · rw [toLower_of_upper h.1 h.2]
    omega
  · rw [toLower_of_not_upper h]

theorem alpha_toUpper (c : Char) : isAsciiAlpha (Char.toUpper c) = isAsciiAlpha c := by
  rw [Bool.eq_iff_iff, isAsciiAlpha_iff, isAsciiAlpha_iff]
  by_cases h : 97 ≤ c.toNat ∧ c.toNat ≤ 122
  · rw [toUpper_of_lower h.1 h.2]
    omega
  · rw [toUpper_of_not_lower h]

/-- A head character is none of the punctuation characters that delimit a
header-name literal. -/
theorem headChar_ne_delims {c : Char} (h : isHeadChar c = true) :
    c ≠ '"' ∧ c ≠ ')' ∧ c ≠ ';' ∧ c ≠ '\'' := by
  refine ⟨?_, ?_, ?_, ?_⟩ <;> intro he <;> subst he <;> exact absurd h (by decide)

/-- Python `name.split("-")`: split at every hyphen, keeping empty tokens. -/
def splitHyphen : List Char → List (List Char)
  | [] => [[]]
  | c :: cs =>
    if c = '-' then [] :: splitHyphen cs
    else
      match splitHyphen cs with
      | [] => [[c]]
      | t :: ts => (c :: t) :: ts

/-- Python `s.split()` (no separator): split on runs of whitespace, dropping
empty tokens.  `acc` holds the reversed current token. -/
def splitWsAcc : List Char → List Char → List (List Char)
  | acc, [] => if acc = [] then [] else [acc.reverse]
  | acc, c :: cs =>
    if isPyWs c then
      if acc = [] then splitWsAcc [] cs else acc.reverse :: splitWsAcc [] cs
    else splitWsAcc (c :: acc) cs

/-- Python `s.split()` applied to a whole string. -/
def pySplitWs (s : List Char) : List (List Char) :=
  splitWsAcc [] s

/-- Python `s.capitalize()`: first character upper-cased, the rest
lower-cased (title-case and upper-case agree on ASCII). -/
def pyCapitalize : List Char → List Char
  | [] => []
  | c :: cs => Char.toUpper c :: cs.map Char.toLower

/-- Python `string.capwords(s)`: split on whitespace, capitalize each word,
join the words with single spaces. -/
def capwords (s : List Char) : List Char :=
  List.intercalate [' '] ((pySplitWs s).map pyCapitalize)

/-- Python `s.lower()` on the ASCII strings this script handles. -/
def pyLowerStr (s : List Char) : List Char :=
  s.map Char.toLower

/-- `cap_header` from the source: irregular cases "www" and "etag", otherwise
`capwords`. -/
def cap_header (name : List Char) : List Char :=
  if pyLowerStr name = "www".data then "WWW".data
  else if pyLowerStr name = "etag".data then "ETag".data
  else capwords name

/-- The canonical display name built on line 16 of the source:
`"-".join([cap_header(n) for n in name.split("-")])`. -/
def canonHeader (name : List Char) : List Char :=
  List.intercalate ['-'] ((splitHyphen name).map cap_header)

/-- `make_header` from the source: the canonical display name, followed by
the literal text `", b"` and the upper-cased canonical name (the f-string
`new_header + '", b"' + new_header.upper()`). -/
def make_header (name : List Char) : List Char :=
  canonHeader name ++ ('"' :: ',' :: ' ' :: 'b' :: '"' :: []) ++ (canonHeader name).map Char.toUpper

/-- Python `f.readlines()` on decoded text: split after every newline,
keeping the newline at the end of each line; a final fragment without a
newline is also a line. -/
def splitLines : List Char → List (List Char)
  | [] => []
  | c :: cs =>
    if c = '\n' then ['\n'] :: splitLines cs
    else
      match splitLines cs with
      | [] => [[c]]
      | l :: ls => (c :: l) :: ls

/-- Python `s.strip()`: remove leading and trailing whitespace. -/
def pyStrip (s : List Char) : List Char :=
  ((s.dropWhile isPyWs).reverse.dropWhile isPyWs).reverse

/-- Modelled from the spec's words for claim C5: trim trailing whitespace
only (the spec says the emitted line is "trimmed of trailing whitespace"). -/
def rstripOnly (s : List Char) : List Char :=
  (s.reverse.dropWhile isPyWs).reverse

/-- The full text matched by `header_matcher` when group 1 is `name`:
`b"name");`. -/
def headerLit (name : List Char) : List Char :=
  'b' :: '"' :: name ++ '"' :: ')' :: ';' :: []

/-- Attempt to match the regex `b\"([a-zA-Z\-]+)\"\);` at the head of `s`.
The character class excludes `"`, so the greedy `+` never backtracks: a
match at this position exists exactly when the maximal run of class
characters after `b"` is nonempty and is followed by `");`.  Returns
group 1 and the text after the whole match. -/
def matchHeaderAt (s : List Char) : Option (List Char × List Char) :=
  if s.take 2 = ['b', '"'] then
    if (s.drop 2).takeWhile isHeadChar ≠ [] ∧
        ((s.drop 2).dropWhile isHeadChar).take 3 = ['"', ')', ';'] then
      some ((s.drop 2).takeWhile isHeadChar, ((s.drop 2).dropWhile isHeadChar).drop 3)
    else none
  else none

/-- Python `s.replace(pat, repl)` (all non-overlapping occurrences, scanned
left to right), via structural fuel; `fuel ≥ s.length` is always used.  The
script only calls it with a nonempty `pat` (a regex `+` group). -/
def strReplaceF (pat repl : List Char) : Nat → List Char → List Char
  | _, [] => []
  | 0, s => s
  | fuel + 1, c :: cs =>
    if pat ≠ [] ∧ pat.isPrefixOf (c :: cs) then
      repl ++ strReplaceF pat repl fuel ((c :: cs).drop pat.length)
    else c :: strReplaceF pat repl fuel cs

/-- Python `s.replace(pat, repl)`. -/
def pyReplace (s pat repl : List Char) : List Char :=
  strReplaceF pat repl s.length s

/-- `upper_header` from the source: given a match it returns
`group(0).replace(group(1), group(1).lower())`. -/
def upper_header (g0 g1 : List Char) : List Char :=
  pyReplace g0 g1 (pyLowerStr g1)

/-- One pass of `re.sub` with `header_matcher`: scan left to right, at each
position try the pattern; on a match emit `repl` applied to group 1 and
continue after the match, otherwise keep the character.  Structural fuel;
`fuel ≥ s.length` is always used. -/
def reSubHeaderF (repl : List Char → List Char) : Nat → List Char → List Char
  | _, [] => []
  | 0, s => s
  | fuel + 1, c :: cs =>
    (matchHeaderAt (c :: cs)).elim (c :: reSubHeaderF repl fuel cs)
      (fun p => repl p.1 ++ reSubHeaderF repl fuel p.2)

/-- `re.sub(header_matcher, repl, s)`. -/
def reSubHeader (repl : List Char → List Char) (s : List Char) : List Char :=
  reSubHeaderF repl s.length s

/-- `header_matcher.sub(upper_header, line)` from the source. -/
def headerSub (line : List Char) : List Char :=
  reSubHeader (fun name => upper_header (headerLit name) name) line

/-- Modelled from the spec's words for claim C2: each substring matching the
header-name literal pattern followed by `");` has its matched name replaced
by its all-lowercase form, with the surrounding `b"…");` text kept intact. -/
def headerSubSpec (line : List Char) : List Char :=
  reSubHeader (fun name => headerLit (pyLowerStr name)) line

/-- Does `header_matcher` match anywhere in `s`? -/
def hasHeaderMatch : List Char → Bool
  | [] => false
  | c :: cs => (matchHeaderAt (c :: cs)).isSome || hasHeaderMatch cs

/-- Attempt to match the regex `b'([a-z]{1})'` of `char_matcher` at the head
of `s`. -/
def matchCharLitAt : List Char → Bool
  | b :: q1 :: c :: q2 :: _ =>
    b == 'b' && q1 == '\'' && (97 ≤ c.toNat && c.toNat ≤ 122) && q2 == '\''
  | _ => false

/-- Does `char_matcher` match anywhere in `s`? -/
def hasCharLitMatch : List Char → Bool
  | [] => false
  | c :: cs => matchCharLitAt (c :: cs) || hasCharLitMatch cs

/-- The per-line step of `replace_header_names`: the new line produced by the
substitution, and the boolean `line != new_line` that guards the diagnostic
print. -/
def processLine (line : List Char) : List Char × Bool :=
  (headerSub line, decide (line ≠ headerSub line))

/-- The loop of `replace_header_names` over the list of lines: returns the
accumulated updated lines and the stripped lines printed to standard
output, in order. -/
def processLines : List (List Char) → List (List Char) × List (List Char)
  | [] => ([], [])
  | line :: rest =>
    let new_line := headerSub line
    let r := processLines rest
    (new_line :: r.1, (if line ≠ new_line then [pyStrip new_line] else []) ++ r.2)

/-- `replace_header_names` from the source, as a function from the text
content of the file to the new content written back (`writelines` of the
updated lines) together with the printed diagnostic lines. -/
def replace_header_names (content : List Char) : List Char × List (List Char) :=
  let r := processLines (splitLines content)
  (r.1.flatten, r.2)

/-- How a character of an input line relates to the character at the same
position of the substituted line: unchanged, or lower-cased. -/
def caseRel (a b : Char) : Prop :=
  b = a ∨ b = Char.toLower a

example : headerSub "HeaderName::from(b\"Content-Type\");".data
    = "HeaderName::from(b\"content-type\");".data := by decide

example : headerSub "b\"abc\");".data = "b\"abc\");".data := by decide

example : headerSub "b\"b\");".data = "b\"b\");".data := by decide

example : headerSub "b\"B\"); b\"X-Y\");".data = "b\"b\"); b\"x-y\");".data := by decide

example : headerSub "b\"foo\" b'a'".data = "b\"foo\" b'a'".data := by decide

example : canonHeader "content-type".data = "Content-Type".data := by decide

example : canonHeader "www-authenticate".data = "WWW-Authenticate".data := by decide

example : make_header "etag".data = "ETag\", b\"ETAG".data := by decide

example : replace_header_names "  b\"A\");\nok\n".data
    = ("  b\"a\");\nok\n".data, ["b\"a\");".data]) := by decide

example : splitLines "a\nb".data = [['a', '\n'], ['b']] := by decide

theorem headerLit_length (nm : List Char) : (headerLit nm).length = nm.length + 5 := by
  simp [headerLit]

/-- Splitting a list at a maximal run: if every element of `nm` satisfies `p`
and `x` does not, `takeWhile` and `dropWhile` cut `nm ++ x :: xs` exactly at
the boundary. -/
theorem takeWhile_append_all {p : Char → Bool} {nm : List Char} {x : Char} {xs : List Char}
    (h : ∀ c ∈ nm, p c = true) (hx : p x = false) :
    (nm ++ x :: xs).takeWhile p = nm ∧ (nm ++ x :: xs).dropWhile p = x :: xs := by
  induction nm with
  | nil => simp [List.takeWhile_cons, List.dropWhile_cons, hx]
  | cons a as ih =>
    have ha : p a = true := h a (List.mem_cons_self a as)
    have ih2 := ih (fun c hc => h c (List.mem_cons_of_mem a hc))
    simp [List.takeWhile_cons, List.dropWhile_cons, ha, ih2.1, ih2.2]

/-- Characterization of a successful match of `header_matcher`: group 1 is a
nonempty run of class characters and the input decomposes as the literal
`b"name");` followed by the remainder. -/
theorem matchHeaderAt_some_iff {s nm r : List Char} :
    matchHeaderAt s = some (nm, r) ↔
      nm ≠ [] ∧ (∀ c ∈ nm, isHeadChar c = true) ∧ s = headerLit nm ++ r := by
  constructor
  · intro h
    unfold matchHeaderAt at h
    by_cases h2 : s.take 2 = ['b', '"']
    case neg => rw [if_neg h2] at h; exact absurd h (by simp)
    rw [if_pos h2] at h
    by_cases h3 : (s.drop 2).takeWhile isHeadChar ≠ [] ∧
        ((s.drop 2).dropWhile isHeadChar).take 3 = ['"', ')', ';']
    case neg => rw [if_neg h3] at h; exact absurd h (by simp)
    rw [if_pos h3, Option.some_inj, Prod.mk.injEq] at h
    obtain ⟨hnm, hr⟩ := h
    subst hnm
    subst hr
    refine ⟨h3.1, fun c hc => List.mem_takeWhile_imp hc, ?_⟩
    have e1 : s = ['b', '"'] ++ s.drop 2 := by
      conv_lhs => rw [← List.take_append_drop 2 s, h2]
    have e2 : s.drop 2 =
        (s.drop 2).takeWhile isHeadChar ++ (s.drop 2).dropWhile isHeadChar :=
      (List.takeWhile_append_dropWhile isHeadChar (s.drop 2)).symm
    have e3 : (s.drop 2).dropWhile isHeadChar =
        ['"', ')', ';'] ++ ((s.drop 2).dropWhile isHeadChar).drop 3 := by
      conv_lhs => rw [← List.take_append_drop 3 ((s.drop 2).dropWhile isHeadChar), h3.2]
    conv_lhs => rw [e1, e2, e3]
    simp [headerLit]
  · rintro ⟨hne, hhc, rfl⟩
    have e0 : headerLit nm ++ r = 'b' :: '"' :: (nm ++ '"' :: ')' :: ';' :: r) := by
      simp [headerLit]
    have hq : isHeadChar '"' = false := by decide
    have htw : (nm ++ '"' :: ')' :: ';' :: r).takeWhile isHeadChar = nm ∧
        (nm ++ '"' :: ')' :: ';' :: r).dropWhile isHeadChar = '"' :: ')' :: ';' :: r :=
      takeWhile_append_all hhc hq
    unfold matchHeaderAt
    rw [e0]
    rw [if_pos (by simp [List.take])]
    have e4 : (('b' :: '"' :: (nm ++ '"' :: ')' :: ';' :: r)).drop 2) =
        nm ++ '"' :: ')' :: ';' :: r := by simp [List.drop]
    rw [e4, htw.1, htw.2]
    rw [if_pos ⟨hne, by simp [List.take]⟩]
    simp [List.drop]

theorem matchHeaderAt_length {s nm r : List Char} (h : matchHeaderAt s = some (nm, r)) :
    s.length = nm.length + r.length + 5 ∧ 1 ≤ nm.length := by
  obtain ⟨hne, _, hs⟩ := matchHeaderAt_some_iff.mp h
  constructor
  · rw [hs, List.length_append, headerLit_length]
    omega
  · cases nm
    · exact absurd rfl hne
    · simp

/-- The result of `reSubHeaderF` does not depend on the fuel, as long as the
fuel dominates the input length. -/
theorem reSubHeaderF_fuel (repl : List Char → List Char) :
    ∀ f g s, s.length ≤ f → s.length ≤ g →
      reSubHeaderF repl f s = reSubHeaderF repl g s := by
  intro f
  induction f with
  | zero =>
    intro g s hf _
    have hs : s = [] := by
      cases s
      · rfl
      · simp at hf
    subst hs
    cases g <;> rfl
  | succ f ih =>
    intro g s hf hg
    cases s with
    | nil => cases g <;> rfl
    | cons c cs =>
      obtain ⟨g', rfl⟩ : ∃ g', g = g' + 1 := by
        cases g
        · simp at hg
        · exact ⟨_, rfl⟩
      simp only [reSubHeaderF]
      simp only [List.length_cons] at hf hg
      cases hm : matchHeaderAt (c :: cs) with
      | none =>
        simp only [Option.elim]
        rw [ih g' cs (by omega) (by omega)]
      | some p =>
        obtain ⟨nm, r⟩ := p
        have hl := matchHeaderAt_length hm
        simp only [List.length_cons] at hl
        simp only [Option.elim]
        rw [ih g' r (by omega) (by omega)]

theorem reSubHeader_nil (repl : List Char → List Char) : reSubHeader repl [] = [] := rfl

theorem reSubHeader_cons_none {repl : List Char → List Char} {c : Char} {cs : List Char}
    (hm : matchHeaderAt (c :: cs) = none) :
    reSubHeader repl (c :: cs) = c :: reSubHeader repl cs := by
  unfold reSubHeader
  simp only [List.length_cons, reSubHeaderF, hm, Option.elim]

theorem reSubHeader_cons_some {repl : List Char → List Char} {c : Char} {cs nm r : List Char}
    (hm : matchHeaderAt (c :: cs) = some (nm, r)) :
    reSubHeader repl (c :: cs) = repl nm ++ reSubHeader repl r := by
  unfold reSubHeader
  simp only [List.length_cons, reSubHeaderF, hm, Option.elim]
  have hl := matchHeaderAt_length hm
  simp only [List.length_cons] at hl
  rw [reSubHeaderF_fuel repl cs.length r.length r (by omega) (by omega)]

theorem isPrefixOf_append_self (p t : List Char) : p.isPrefixOf (p ++ t) = true := by
  induction p with
  | nil => simp
  | cons a as ih => simp [List.isPrefixOf_cons₂, ih]

theorem isPrefixOf_cons_ne {a b : Char} {as bs : List Char} (h : a ≠ b) :
    (a :: as).isPrefixOf (b :: bs) = false := by
  simp [List.isPrefixOf_cons₂, h]

/-- The result of `strReplaceF` does not depend on the fuel, as long as the
fuel dominates the input length. -/
theorem strReplaceF_fuel (pat repl : List Char) :
    ∀ f g s, s.length ≤ f → s.length ≤ g →
      strReplaceF pat repl f s = strReplaceF pat repl g s := by
  intro f
  induction f with
  | zero =>
    intro g s hf _
    have hs : s = [] := by
      cases s
      · rfl
      · simp at hf
    subst hs
    cases g <;> rfl
  | succ f ih =>
    intro g s hf hg
    cases s with
    | nil => cases g <;> rfl
    | cons c cs =>
      obtain ⟨g', rfl⟩ : ∃ g', g = g' + 1 := by
        cases g
        · simp at hg
        · exact ⟨_, rfl⟩
      simp only [List.length_cons] at hf hg
      simp only [strReplaceF]
      by_cases hp : pat ≠ [] ∧ pat.isPrefixOf (c :: cs) = true
      · rw [if_pos hp, if_pos hp]
        have hpl : 1 ≤ pat.length := by
          cases pat
          · exact absurd rfl hp.1
          · simp
        rw [ih g' ((c :: cs).drop pat.length) (by simp; omega) (by simp; omega)]
      · rw [if_neg hp, if_neg hp]
        rw [ih g' cs (by omega) (by omega)]

theorem pyReplace_nil (pat repl : List Char) : pyReplace [] pat repl = [] := rfl

theorem pyReplace_cons_pos {pat repl : List Char} {c : Char} {cs : List Char}
    (h1 : pat ≠ []) (h2 : pat.isPrefixOf (c :: cs) = true) :
    pyReplace (c :: cs) pat repl = repl ++ pyReplace ((c :: cs).drop pat.length) pat repl := by
  unfold pyReplace
  simp only [List.length_cons, strReplaceF]
  rw [if_pos ⟨h1, h2⟩]
  have hpl : 1 ≤ pat.length := by
    cases pat
    · exact absurd rfl h1
    · simp
  rw [strReplaceF_fuel pat repl cs.length ((c :: cs).drop pat.length).length
    ((c :: cs).drop pat.length) (by simp; omega) le_rfl]

theorem pyReplace_cons_neg {pat repl : List Char} {c : Char} {cs : List Char}
    (h : ¬ (pat ≠ [] ∧ pat.isPrefixOf (c :: cs) = true)) :
    pyReplace (c :: cs) pat repl = c :: pyReplace cs pat repl := by
  unfold pyReplace
  simp only [List.length_cons, strReplaceF]
  rw [if_neg h]

/-- Evaluating `upper_header` on the matched text: since group 1 is a run of
name characters and the only other characters of group 0 are `b`, `"`, `)`
and `;`, the name occurs in `b"name");` exactly once — except in the
harmless case `name = "b"`, whose lower-casing is the identity — so
`str.replace` rewrites exactly the name, producing `b"name");` with the
name lower-cased. -/
theorem upper_header_lit {nm : List Char} (hne : nm ≠ [])
    (hhc : ∀ c ∈ nm, isHeadChar c = true) :
    upper_header (headerLit nm) nm = headerLit (pyLowerStr nm) := by
  by_cases hb : nm = ['b']
  · subst hb
    decide
  · obtain ⟨n0, nm', rfl⟩ : ∃ n0 nm', nm = n0 :: nm' := by
      cases nm
      · exact absurd rfl hne
      · exact ⟨_, _, rfl⟩
    have hn0 : isHeadChar n0 = true := hhc n0 (List.mem_cons_self n0 nm')
    have hd0 := headChar_ne_delims hn0
    unfold upper_header
    have e0 : headerLit (n0 :: nm') = 'b' :: '"' :: ((n0 :: nm') ++ ['"', ')', ';']) := by
      simp [headerLit]
    rw [e0]
    have step1 : ¬ ((n0 :: nm') ≠ [] ∧
        (n0 :: nm').isPrefixOf ('"' :: ((n0 :: nm') ++ ['"', ')', ';'])) = true) := by
      rintro ⟨-, hpre⟩
      rw [isPrefixOf_cons_ne hd0.1] at hpre
      exact absurd hpre (by simp)
    have step0 : ¬ ((n0 :: nm') ≠ [] ∧
        (n0 :: nm').isPrefixOf ('b' :: '"' :: ((n0 :: nm') ++ ['"', ')', ';'])) = true) := by
      rintro ⟨-, hpre⟩
      by_cases hn0b : n0 = 'b'
      · subst hn0b
        obtain ⟨n1, nm'', rfl⟩ : ∃ n1 nm'', nm' = n1 :: nm'' := by
          cases nm' with
          | nil => exact absurd rfl hb
          | cons n1 nm'' => exact ⟨_, _, rfl⟩
        rw [List.isPrefixOf_cons₂] at hpre
        have hn1 : isHeadChar n1 = true :=
          hhc n1 (List.mem_cons_of_mem _ (List.mem_cons_self n1 nm''))
        rw [isPrefixOf_cons_ne (headChar_ne_delims hn1).1] at hpre
        exact absurd hpre (by simp)
      · rw [isPrefixOf_cons_ne hn0b] at hpre
        exact absurd hpre (by simp)
    rw [pyReplace_cons_neg step0, pyReplace_cons_neg step1]
    have e1 : (n0 :: nm') ++ ['"', ')', ';'] = n0 :: (nm' ++ ['"', ')', ';']) := by simp
    rw [e1]
    rw [pyReplace_cons_pos (by simp) (by rw [← e1]; exact isPrefixOf_append_self _ _)]
    have e2 : (n0 :: (nm' ++ ['"', ')', ';'])).drop (n0 :: nm').length = ['"', ')', ';'] := by
      rw [← e1]
      exact List.drop_left _ _
    rw [e2]
    have ha : ¬ ((n0 :: nm') ≠ [] ∧
        (n0 :: nm').isPrefixOf ('"' :: [')', ';']) = true) := by
      rintro ⟨-, hpre⟩
      rw [isPrefixOf_cons_ne hd0.1] at hpre
      exact absurd hpre (by simp)
    have hb2 : ¬ ((n0 :: nm') ≠ [] ∧
        (n0 :: nm').isPrefixOf (')' :: [';']) = true) := by
      rintro ⟨-, hpre⟩
      rw [isPrefixOf_cons_ne hd0.2.1] at hpre
      exact absurd hpre (by simp)
    have hc2 : ¬ ((n0 :: nm') ≠ [] ∧
        (n0 :: nm').isPrefixOf (';' :: []) = true) := by
      rintro ⟨-, hpre⟩
      rw [isPrefixOf_cons_ne hd0.2.2.1] at hpre
      exact absurd hpre (by simp)
    have tail3 : pyReplace ['"', ')', ';'] (n0 :: nm') (pyLowerStr (n0 :: nm'))
        = ['"', ')', ';'] := by
      rw [show (['"', ')', ';'] : List Char) = '"' :: [')', ';'] from rfl,
        pyReplace_cons_neg ha,
        show ([')', ';'] : List Char) = ')' :: [';'] from rfl,
        pyReplace_cons_neg hb2,
        show ([';'] : List Char) = ';' :: [] from rfl,
        pyReplace_cons_neg hc2,
        pyReplace_nil]
    rw [tail3]
    simp [headerLit, pyLowerStr]

/-- Two replacement functions that agree on every possible group 1 give the
same substitution. -/
theorem reSubHeader_congr {r1 r2 : List Char → List Char}
    (h : ∀ nm, nm ≠ [] → (∀ c ∈ nm, isHeadChar c = true) → r1 nm = r2 nm) :
    ∀ s, reSubHeader r1 s = reSubHeader r2 s := by
  suffices H : ∀ f s, s.length ≤ f → reSubHeader r1 s = reSubHeader r2 s by
    intro s
    exact H s.length s le_rfl
  intro f
  induction f with
  | zero =>
    intro s hf
    have hs : s = [] := by
      cases s
      · rfl
      · simp at hf
    subst hs
    rfl
  | succ f ih =>
    intro s hf
    cases s with
    | nil => rfl
    | cons c cs =>
      simp only [List.length_cons] at hf
      cases hm : matchHeaderAt (c :: cs) with
      | none =>
        rw [reSubHeader_cons_none hm, reSubHeader_cons_none hm, ih cs (by omega)]
      | some p =>
        obtain ⟨nm, r⟩ := p
        have hl := matchHeaderAt_length hm
        simp only [List.length_cons] at hl
        obtain ⟨hne, hhc, -⟩ := matchHeaderAt_some_iff.mp hm
        rw [reSubHeader_cons_some hm, reSubHeader_cons_some hm, h nm hne hhc, ih r (by omega)]

/-- The source substitution agrees everywhere with the specification's
direct description: every matched name is replaced by its lower-cased form
in place. -/
theorem headerSub_eq_spec (line : List Char) : headerSub line = headerSubSpec line := by
  unfold headerSub headerSubSpec
  exact reSubHeader_congr (fun nm hne hhc => upper_header_lit hne hhc) line

theorem reSubHeader_some {repl : List Char → List Char} {s nm r : List Char}
    (hm : matchHeaderAt s = some (nm, r)) :
    reSubHeader repl s = repl nm ++ reSubHeader repl r := by
  obtain ⟨-, -, hdec⟩ := matchHeaderAt_some_iff.mp hm
  cases s with
  | nil =>
    exfalso
    have := congrArg List.length hdec
    simp [headerLit_length] at this
    omega
  | cons c cs => exact reSubHeader_cons_some hm

theorem headerSubSpec_nil : headerSubSpec [] = [] := rfl

theorem headerSubSpec_cons_none {c : Char} {cs : List Char}
    (hm : matchHeaderAt (c :: cs) = none) :
    headerSubSpec (c :: cs) = c :: headerSubSpec cs :=
  reSubHeader_cons_none hm

theorem headerSubSpec_some {s nm r : List Char} (hm : matchHeaderAt s = some (nm, r)) :
    headerSubSpec s = headerLit (pyLowerStr nm) ++ headerSubSpec r :=
  reSubHeader_some hm

/-- Lower-casing a name keeps it a nonempty run of class characters. -/
theorem lower_name_good {nm : List Char} (hne : nm ≠ [])
    (hhc : ∀ c ∈ nm, isHeadChar c = true) :
    pyLowerStr nm ≠ [] ∧ ∀ c ∈ pyLowerStr nm, isHeadChar c = true := by
  constructor
  · intro h
    exact hne (List.map_eq_nil_iff.mp h)
  · intro c hc
    obtain ⟨a, ha, rfl⟩ := List.mem_map.mp hc
    rw [isHeadChar_toLower]
    exact hhc a ha

/-- The substitution never changes the first character of a line. -/
theorem headerSubSpec_head : ∀ s : List Char, (headerSubSpec s).head? = s.head? := by
  intro s
  cases s with
  | nil => rfl
  | cons c cs =>
    cases hm : matchHeaderAt (c :: cs) with
    | none =>
      rw [headerSubSpec_cons_none hm]
      simp
    | some p =>
      obtain ⟨nm, r⟩ := p
      obtain ⟨hne, hhc, hdec⟩ := matchHeaderAt_some_iff.mp hm
      rw [headerSubSpec_some hm]
      have h1 : (c :: cs).head? = some 'b' := by
        rw [hdec]
        simp [headerLit]
      rw [h1]
      have h2 : pyLowerStr nm ≠ [] := (lower_name_good hne hhc).1
      simp [headerLit]

/-- Inverting one no-substitution step: if the output starts with a character
other than `b`, so did the input, and the tails correspond. -/
theorem headerSubSpec_cons_inv {d : Char} {u X : List Char} (hd : d ≠ 'b')
    (h : headerSubSpec u = d :: X) :
    ∃ u', u = d :: u' ∧ headerSubSpec u' = X := by
  have hh := headerSubSpec_head u
  rw [h] at hh
  cases u with
  | nil => exact absurd h (by rw [headerSubSpec_nil]; simp)
  | cons c cs =>
    have hcd : c = d := by
      simp only [List.head?_cons] at hh
      exact (Option.some_inj.mp hh).symm
    subst hcd
    cases hm : matchHeaderAt (c :: cs) with
    | none =>
      rw [headerSubSpec_cons_none hm] at h
      exact ⟨cs, rfl, (List.cons.injEq _ _ _ _ ▸ h).2⟩
    | some p =>
      obtain ⟨nm, r⟩ := p
      obtain ⟨-, -, hdec⟩ := matchHeaderAt_some_iff.mp hm
      exfalso
      apply hd
      have : (c :: cs).head? = some 'b' := by
        rw [hdec]
        simp [headerLit]
      simpa using this

/-- Reflecting a ready-to-match tail through the substitution: if the output
of the substitution looks like `name");…`, then the input already looked
like `name2");…`. -/
theorem headerSubSpec_tail_inv : ∀ nm u r : List Char, nm ≠ [] →
    (∀ c ∈ nm, isHeadChar c = true) →
    headerSubSpec u = nm ++ '"' :: ')' :: ';' :: r →
    ∃ nm2 r2, nm2 ≠ [] ∧ (∀ c ∈ nm2, isHeadChar c = true) ∧
      u = nm2 ++ '"' :: ')' :: ';' :: r2 := by
  intro nm
  induction nm with
  | nil => intro u r hne; exact absurd rfl hne
  | cons n0 nm' ih =>
    intro u r _ hhc h
    have hh := headerSubSpec_head u
    rw [h] at hh
    cases u with
    | nil =>
      rw [headerSubSpec_nil] at h
      exact absurd h.symm (by simp)
    | cons c cs =>
      have hcn : n0 = c := by
        simp only [List.cons_append, List.head?_cons] at hh
        exact Option.some_inj.mp hh
      subst hcn
      cases hm : matchHeaderAt (n0 :: cs) with
      | some p =>
        obtain ⟨m, r2⟩ := p
        obtain ⟨hmne, hmhc, -⟩ := matchHeaderAt_some_iff.mp hm
        rw [headerSubSpec_some hm] at h
        exfalso
        obtain ⟨m0, ms, rfl⟩ : ∃ m0 ms, m = m0 :: ms := by
          cases m
          · exact absurd rfl hmne
          · exact ⟨_, _, rfl⟩
        have hm0 : isHeadChar (Char.toLower m0) = true := by
          rw [isHeadChar_toLower]
          exact hmhc m0 (List.mem_cons_self m0 ms)
        have hL : headerLit (pyLowerStr (m0 :: ms)) ++ headerSubSpec r2
            = 'b' :: '"' :: Char.toLower m0 ::
              (List.map Char.toLower ms ++ '"' :: ')' :: ';' :: headerSubSpec r2) := by
          simp [headerLit, pyLowerStr]
        rw [hL] at h
        cases nm' with
        | nil =>
          simp only [List.singleton_append, List.cons.injEq] at h
          exact (headChar_ne_delims hm0).2.1 h.2.2.1
        | cons n1 nm'' =>
          have hn1 : isHeadChar n1 = true :=
            hhc n1 (List.mem_cons_of_mem _ (List.mem_cons_self n1 nm''))
          simp only [List.cons_append, List.cons.injEq] at h
          exact (headChar_ne_delims hn1).1 h.2.1.symm
      | none =>
        rw [headerSubSpec_cons_none hm] at h
        have h' : headerSubSpec cs = nm' ++ '"' :: ')' :: ';' :: r := by
          have := congrArg List.tail h
          simpa using this
        cases nm' with
        | nil =>
          simp only [List.nil_append] at h'
          obtain ⟨cs1, rfl, h1⟩ := headerSubSpec_cons_inv (by decide) h'
          obtain ⟨cs2, rfl, h2⟩ := headerSubSpec_cons_inv (by decide) h1
          obtain ⟨cs3, rfl, h3⟩ := headerSubSpec_cons_inv (by decide) h2
          refine ⟨[n0], cs3, by simp, ?_, by simp⟩
          intro d hd
          simp only [List.mem_singleton] at hd
          subst hd
          exact hhc d (List.mem_cons_self d [])
        | cons n1 nm'' =>
          obtain ⟨nm2, r2, hne2, hhc2, rfl⟩ :=
            ih cs r (by simp) (fun d hd => hhc d (List.mem_cons_of_mem _ hd)) h'
          refine ⟨n0 :: nm2, r2, by simp, ?_, by simp⟩
          intro d hd
          rcases List.mem_cons.mp hd with rfl | hd2
          · exact hhc d (List.mem_cons_self d _)
          · exact hhc2 d hd2

/-- One substitution pass reaches a fixed point: a second pass changes
nothing. -/
theorem headerSubSpec_idem : ∀ s : List Char, headerSubSpec (headerSubSpec s) = headerSubSpec s := by
  suffices H : ∀ f s, s.length ≤ f → headerSubSpec (headerSubSpec s) = headerSubSpec s by
    intro s
    exact H s.length s le_rfl
  intro f
  induction f with
  | zero =>
    intro s hf
    have hs : s = [] := by
      cases s
      · rfl
      · simp at hf
    subst hs
    rfl
  | succ f ih =>
    intro s hf
    cases s with
    | nil => rfl
    | cons c cs =>
      simp only [List.length_cons] at hf
      cases hm : matchHeaderAt (c :: cs) with
      | some p =>
        obtain ⟨nm, r⟩ := p
        obtain ⟨hne, hhc, hdec⟩ := matchHeaderAt_some_iff.mp hm
        have hl := matchHeaderAt_length hm
        simp only [List.length_cons] at hl
        rw [headerSubSpec_some hm]
        have hg := lower_name_good hne hhc
        have hm2 : matchHeaderAt (headerLit (pyLowerStr nm) ++ headerSubSpec r)
            = some (pyLowerStr nm, headerSubSpec r) :=
          matchHeaderAt_some_iff.mpr ⟨hg.1, hg.2, rfl⟩
        rw [headerSubSpec_some hm2]
        have hll : pyLowerStr (pyLowerStr nm) = pyLowerStr nm := by
          simp only [pyLowerStr, List.map_map]
          apply List.map_congr_left
          intro a _
          exact toLower_toLower a
        rw [hll, ih r (by omega)]
      | none =>
        rw [headerSubSpec_cons_none hm]
        cases hm2 : matchHeaderAt (c :: headerSubSpec cs) with
        | none =>
          rw [headerSubSpec_cons_none hm2, ih cs (by omega)]
        | some p =>
          exfalso
          obtain ⟨m, r2⟩ := p
          obtain ⟨hmne, hmhc, hdec⟩ := matchHeaderAt_some_iff.mp hm2
          simp only [headerLit, List.cons_append, List.append_assoc, List.cons.injEq] at hdec
          obtain ⟨hcb, hrest⟩ := hdec
          subst hcb
          obtain ⟨cs2, rfl, h2⟩ := headerSubSpec_cons_inv (by decide) hrest
          have h2' : headerSubSpec cs2 = m ++ '"' :: ')' :: ';' :: r2 := by
            rw [h2]
            simp
          obtain ⟨nm2, r3, hne2, hhc2, rfl⟩ := headerSubSpec_tail_inv m cs2 r2 hmne hmhc h2'
          have : matchHeaderAt ('b' :: '"' :: (nm2 ++ '"' :: ')' :: ';' :: r3))
              = some (nm2, r3) := by
            apply matchHeaderAt_some_iff.mpr
            refine ⟨hne2, hhc2, ?_⟩
            simp [headerLit]
          rw [this] at hm
          exact absurd hm (by simp)

/-- `headerSub` is idempotent on every line. -/
theorem headerSub_idem (s : List Char) : headerSub (headerSub s) = headerSub s := by
  calc headerSub (headerSub s) = headerSubSpec (headerSubSpec s) := by
        rw [headerSub_eq_spec, headerSub_eq_spec]
    _ = headerSubSpec s := headerSubSpec_idem s
    _ = headerSub s := (headerSub_eq_spec s).symm

theorem caseRel_refl_list : ∀ l : List Char, List.Forall₂ caseRel l l
  | [] => List.Forall₂.nil
  | _ :: cs => List.Forall₂.cons (Or.inl rfl) (caseRel_refl_list cs)

theorem caseRel_lower_list : ∀ l : List Char, List.Forall₂ caseRel l (pyLowerStr l)
  | [] => List.Forall₂.nil
  | _ :: cs => List.Forall₂.cons (Or.inr rfl) (caseRel_lower_list cs)

/-- Position by position, the substituted line keeps or lower-cases each
character of the input line. -/
theorem forall2_headerSubSpec : ∀ s : List Char, List.Forall₂ caseRel s (headerSubSpec s) := by
  suffices H : ∀ f s, s.length ≤ f → List.Forall₂ caseRel s (headerSubSpec s) by
    intro s
    exact H s.length s le_rfl
  intro f
  induction f with
  | zero =>
    intro s hf
    have hs : s = [] := by
      cases s
      · rfl
      · simp at hf
    subst hs
    exact List.Forall₂.nil
  | succ f ih =>
    intro s hf
    cases s with
    | nil => exact List.Forall₂.nil
    | cons c cs =>
      simp only [List.length_cons] at hf
      cases hm : matchHeaderAt (c :: cs) with
      | none =>
        rw [headerSubSpec_cons_none hm]
        exact List.Forall₂.cons (Or.inl rfl) (ih cs (by omega))
      | some p =>
        obtain ⟨nm, r⟩ := p
        obtain ⟨hne, hhc, hdec⟩ := matchHeaderAt_some_iff.mp hm
        have hl := matchHeaderAt_length hm
        simp only [List.length_cons] at hl
        rw [headerSubSpec_some hm, hdec]
        apply List.rel_append ?_ (ih r (by omega))
        simp only [headerLit, List.cons_append]
        exact List.Forall₂.cons (Or.inl rfl) (List.Forall₂.cons (Or.inl rfl)
          (List.rel_append (caseRel_lower_list nm) (caseRel_refl_list _)))

theorem forall2_headerSub (s : List Char) : List.Forall₂ caseRel s (headerSub s) := by
  rw [headerSub_eq_spec]
  exact forall2_headerSubSpec s

theorem headerSub_length (s : List Char) : (headerSub s).length = s.length :=
  (forall2_headerSub s).length_eq.symm

theorem caseRel_fix {a b : Char} (h : caseRel a b) (ha : Char.toLower a = a) : b = a := by
  rcases h with rfl | rfl
  · rfl
  · exact ha

theorem caseRel_nl {a b : Char} (h : caseRel a b) : a = '\n' ↔ b = '\n' := by
  constructor
  · rintro rfl
    exact caseRel_fix h (by decide)
  · rintro rfl
    rcases h with h1 | h1
    · exact h1.symm
    · exact eq_of_toLower_not_small (by decide) h1.symm

/-- A prefix made of case-fixed characters (like `b'x'` with `x` small) is
still there, at the same position, after the substitution. -/
theorem forall2_keeps_fixed_prefixes {p u v : List Char} (hr : List.Forall₂ caseRel u v)
    (hfix : ∀ a ∈ p, Char.toLower a = a) (hp : p.isPrefixOf u = true) :
    p.isPrefixOf v = true := by
  induction p generalizing u v with
  | nil => simp
  | cons a as ih =>
    cases u with
    | nil => exact absurd hp (by simp [List.isPrefixOf])
    | cons b bs =>
      cases v with
      | nil => cases hr
      | cons d ds =>
        cases hr with
        | cons h1 h2 =>
          rw [List.isPrefixOf_cons₂, Bool.and_eq_true, beq_iff_eq] at hp
          obtain ⟨hab, hp2⟩ := hp
          have hfb : Char.toLower b = b := by
            rw [← hab]
            exact hfix a (List.mem_cons_self a as)
          have hbd : d = b := caseRel_fix h1 hfb
          rw [List.isPrefixOf_cons₂, Bool.and_eq_true, beq_iff_eq]
          exact ⟨hab.trans hbd.symm,
            ih h2 (fun x hx => hfix x (List.mem_cons_of_mem a hx)) hp2⟩

/-- A newline may occur only as the last character. -/
def noInnerNL : List Char → Prop
  | [] => True
  | [_] => True
  | c :: l => c ≠ '\n' ∧ noInnerNL l

/-- The last character is a newline. -/
def endsNL : List Char → Prop
  | [] => False
  | [c] => c = '\n'
  | _ :: l => endsNL l

/-- The shape of the output of `readlines`: every line is nonempty with
newlines only at the end, and every line except possibly the last ends with
a newline. -/
def wfLines : List (List Char) → Prop
  | [] => True
  | [l] => l ≠ [] ∧ noInnerNL l
  | l :: ls => l ≠ [] ∧ noInnerNL l ∧ endsNL l ∧ wfLines ls

theorem splitLines_nil : splitLines [] = [] := rfl

theorem splitLines_cons_nl (cs : List Char) :
    splitLines ('\n' :: cs) = ['\n'] :: splitLines cs := by
  simp [splitLines]

theorem splitLines_cons_ne_nil {c : Char} {cs : List Char} (hc : c ≠ '\n')
    (hsp : splitLines cs = []) : splitLines (c :: cs) = [[c]] := by
  unfold splitLines
  rw [if_neg hc, hsp]

theorem splitLines_cons_ne_cons {c : Char} {cs l : List Char} {ls : List (List Char)}
    (hc : c ≠ '\n') (hsp : splitLines cs = l :: ls) :
    splitLines (c :: cs) = (c :: l) :: ls := by
  unfold splitLines
  rw [if_neg hc, hsp]

theorem noInnerNL_cons {c : Char} {l : List Char} (hc : c ≠ '\n') (hl : noInnerNL l) :
    noInnerNL (c :: l) := by
  cases l with
  | nil => trivial
  | cons x l' => exact ⟨hc, hl⟩

theorem endsNL_cons (c : Char) {l : List Char} (hne : l ≠ []) (hl : endsNL l) :
    endsNL (c :: l) := by
  cases l with
  | nil => exact absurd rfl hne
  | cons x l' => exact hl

/-- The lines produced by `readlines` are well formed. -/
theorem wfLines_splitLines (s : List Char) : wfLines (splitLines s) := by
  induction s with
  | nil => trivial
  | cons c cs ih =>
    by_cases hc : c = '\n'
    · subst hc
      rw [splitLines_cons_nl]
      cases hsp : splitLines cs with
      | nil => exact ⟨by simp, trivial⟩
      | cons l ls =>
        rw [hsp] at ih
        exact ⟨by simp, trivial, rfl, ih⟩
    · cases hsp : splitLines cs with
      | nil =>
        rw [splitLines_cons_ne_nil hc hsp]
        exact ⟨by simp, trivial⟩
      | cons l ls =>
        rw [splitLines_cons_ne_cons hc hsp]
        rw [hsp] at ih
        cases ls with
        | nil =>
          obtain ⟨hlne, hlni⟩ := ih
          exact ⟨by simp, noInnerNL_cons hc hlni⟩
        | cons l2 ls2 =>
          obtain ⟨hlne, hlni, hlend, hwf⟩ := ih
          exact ⟨by simp, noInnerNL_cons hc hlni, endsNL_cons c hlne hlend, hwf⟩

/-- A single well-formed line with no trailing newline splits into itself. -/
theorem splitLines_single {l : List Char} (hne : l ≠ []) (hni : noInnerNL l) :
    splitLines l = [l] := by
  induction l with
  | nil => exact absurd rfl hne
  | cons c l' ih =>
    cases l' with
    | nil =>
      by_cases hc : c = '\n'
      · subst hc
        rw [splitLines_cons_nl]
        rfl
      · exact splitLines_cons_ne_nil hc rfl
    | cons x l'' =>
      obtain ⟨hcn, hni'⟩ := hni
      exact splitLines_cons_ne_cons hcn (ih (by simp) hni')

/-- A well-formed line that ends with a newline splits off the front of any
continuation. -/
theorem splitLines_append {l : List Char} (hni : noInnerNL l) (hend : endsNL l) :
    ∀ u, splitLines (l ++ u) = l :: splitLines u := by
  induction l with
  | nil => exact absurd hend (by simp [endsNL])
  | cons c l' ih =>
    intro u
    cases l' with
    | nil =>
      have hc : c = '\n' := hend
      subst hc
      exact splitLines_cons_nl u
    | cons x l'' =>
      obtain ⟨hcn, hni'⟩ := hni
      rw [List.cons_append]
      exact splitLines_cons_ne_cons hcn (ih hni' hend u)

/-- Writing back well-formed lines and reading them again is the identity. -/
theorem splitLines_flatten : ∀ ls : List (List Char), wfLines ls →
    splitLines ls.flatten = ls := by
  intro ls
  induction ls with
  | nil => intro _; rfl
  | cons l ls' ih =>
    intro hwf
    cases ls' with
    | nil =>
      obtain ⟨hne, hni⟩ := hwf
      simp only [List.flatten_cons, List.flatten_nil, List.append_nil]
      exact splitLines_single hne hni
    | cons l2 ls2 =>
      obtain ⟨hne, hni, hend, hwf'⟩ := hwf
      simp only [List.flatten_cons]
      rw [splitLines_append hni hend]
      congr 1
      rw [← List.flatten_cons]
      exact ih hwf'

theorem forall2_noInner : ∀ {u v : List Char}, List.Forall₂ caseRel u v →
    noInnerNL u → noInnerNL v := by
  intro u
  induction u with
  | nil =>
    intro v hr _
    cases hr
    trivial
  | cons a as ih =>
    intro v hr hni
    cases v with
    | nil => cases hr
    | cons b bs =>
      cases hr with
      | cons h1 h2 =>
        cases as with
        | nil =>
          cases bs with
          | nil => trivial
          | cons y bs' => cases h2
        | cons x as' =>
          cases bs with
          | nil => cases h2
          | cons y bs' =>
            obtain ⟨hna, hni'⟩ := hni
            exact ⟨fun hb => hna ((caseRel_nl h1).mpr hb), ih h2 hni'⟩

theorem forall2_endsNL : ∀ {u v : List Char}, List.Forall₂ caseRel u v →
    endsNL u → endsNL v := by
  intro u
  induction u with
  | nil =>
    intro v hr hend
    exact absurd hend (by simp [endsNL])
  | cons a as ih =>
    intro v hr hend
    cases v with
    | nil => cases hr
    | cons b bs =>
      cases hr with
      | cons h1 h2 =>
        cases as with
        | nil =>
          cases bs with
          | nil => exact (caseRel_nl h1).mp hend
          | cons y bs' => cases h2
        | cons x as' =>
          cases bs with
          | nil => cases h2
          | cons y bs' =>
            show endsNL (y :: bs')
            have hend' : endsNL (x :: as') := hend
            exact ih h2 hend'

theorem headerSub_ne_nil {l : List Char} (h : l ≠ []) : headerSub l ≠ [] := by
  intro h0
  apply h
  have := headerSub_length l
  rw [h0] at this
  exact List.length_eq_zero.mp this.symm

/-- The substitution preserves the well-formedness of the line list. -/
theorem wfLines_map_headerSub : ∀ ls : List (List Char), wfLines ls →
    wfLines (ls.map headerSub) := by
  intro ls
  induction ls with
  | nil => intro _; trivial
  | cons l ls' ih =>
    intro hwf
    cases ls' with
    | nil =>
      obtain ⟨hne, hni⟩ := hwf
      exact ⟨headerSub_ne_nil hne, forall2_noInner (forall2_headerSub l) hni⟩
    | cons l2 ls2 =>
      obtain ⟨hne, hni, hend, hwf'⟩ := hwf
      exact ⟨headerSub_ne_nil hne, forall2_noInner (forall2_headerSub l) hni,
        forall2_endsNL (forall2_headerSub l) hend, ih hwf'⟩

/-- The updated lines accumulated by the loop are exactly the per-line
substitutions, in order. -/
theorem processLines_fst : ∀ ls : List (List Char),
    (processLines ls).1 = ls.map headerSub := by
  intro ls
  induction ls with
  | nil => rfl
  | cons l ls' ih =>
    simp only [processLines, List.map_cons]
    rw [ih]

/-- The printed lines are exactly the stripped substituted forms of the
lines the substitution changed, in order, one print per changed line. -/
theorem processLines_snd : ∀ ls : List (List Char),
    (processLines ls).2 =
      (ls.filter (fun l => decide (l ≠ headerSub l))).map (fun l => pyStrip (headerSub l)) := by
  intro ls
  induction ls with
  | nil => rfl
  | cons l ls' ih =>
    simp only [processLines]
    rw [ih]
    by_cases hch : l ≠ headerSub l
    · rw [if_pos hch, List.filter_cons_of_pos (by simpa using hch), List.map_cons]
      rfl
    · rw [if_neg hch, List.filter_cons_of_neg (by simpa using hch)]
      rfl

theorem splitWsAcc_no_ws {t : List Char} (h : ∀ c ∈ t, isPyWs c = false) :
    ∀ acc : List Char,
      splitWsAcc acc t = if acc = [] ∧ t = [] then [] else [acc.reverse ++ t] := by
  induction t with
  | nil =>
    intro acc
    by_cases ha : acc = []
    · subst ha
      simp [splitWsAcc]
    · simp [splitWsAcc, ha]
  | cons c t' ih =>
    intro acc
    have hc : isPyWs c = false := h c (List.mem_cons_self c t')
    have ih2 := ih (fun d hd => h d (List.mem_cons_of_mem c hd)) (c :: acc)
    simp only [splitWsAcc, hc, Bool.false_eq_true, if_false]
    rw [ih2]
    simp

/-- On a whitespace-free string, `capwords` is plain `capitalize`. -/
theorem capwords_no_ws {t : List Char} (h : ∀ c ∈ t, isPyWs c = false) :
    capwords t = pyCapitalize t := by
  cases t with
  | nil => rfl
  | cons c t' =>
    unfold capwords pySplitWs
    rw [splitWsAcc_no_ws h]
    simp [List.intercalate]

theorem splitHyphen_cons_hyphen (cs : List Char) :
    splitHyphen ('-' :: cs) = [] :: splitHyphen cs := by
  simp [splitHyphen]

theorem splitHyphen_cons_ne {c : Char} {cs t : List Char} {ts : List (List Char)}
    (hc : c ≠ '-') (hsp : splitHyphen cs = t :: ts) :
    splitHyphen (c :: cs) = (c :: t) :: ts := by
  unfold splitHyphen
  rw [if_neg hc, hsp]

theorem splitHyphen_ne_nil : ∀ s : List Char, splitHyphen s ≠ [] := by
  intro s
  induction s with
  | nil => simp [splitHyphen]
  | cons c cs ih =>
    by_cases hc : c = '-'
    · subst hc
      rw [splitHyphen_cons_hyphen]
      simp
    · cases hsp : splitHyphen cs with
      | nil => exact absurd hsp ih
      | cons t ts =>
        rw [splitHyphen_cons_ne hc hsp]
        simp

/-- Characters of a hyphen-split token come from the string and are not
hyphens. -/
theorem mem_splitHyphen : ∀ {s t : List Char}, t ∈ splitHyphen s →
    ∀ c ∈ t, c ∈ s ∧ c ≠ '-' := by
  intro s
  induction s with
  | nil =>
    intro t ht c hc
    simp only [splitHyphen, List.mem_singleton] at ht
    subst ht
    exact absurd hc (by simp)
  | cons a cs ih =>
    intro t ht c hc
    by_cases ha : a = '-'
    · subst ha
      rw [splitHyphen_cons_hyphen] at ht
      rcases List.mem_cons.mp ht with rfl | ht2
      · exact absurd hc (by simp)
      · obtain ⟨h1, h2⟩ := ih ht2 c hc
        exact ⟨List.mem_cons_of_mem _ h1, h2⟩
    · cases hsp : splitHyphen cs with
      | nil => exact absurd hsp (splitHyphen_ne_nil cs)
      | cons t0 ts =>
        rw [splitHyphen_cons_ne ha hsp] at ht
        rcases List.mem_cons.mp ht with rfl | ht2
        · rcases List.mem_cons.mp hc with rfl | hc2
          · exact ⟨List.mem_cons_self c cs, ha⟩
          · obtain ⟨h1, h2⟩ := ih (hsp ▸ List.mem_cons_self t0 ts) c hc2
            exact ⟨List.mem_cons_of_mem _ h1, h2⟩
        · obtain ⟨h1, h2⟩ := ih (hsp ▸ List.mem_cons_of_mem t0 ht2) c hc
          exact ⟨List.mem_cons_of_mem _ h1, h2⟩

theorem splitHyphen_append_no_hyphen {t : List Char} (h : ∀ c ∈ t, c ≠ '-') :
    ∀ {u t0 : List Char} {ts : List (List Char)}, splitHyphen u = t0 :: ts →
      splitHyphen (t ++ u) = (t ++ t0) :: ts := by
  induction t with
  | nil =>
    intro u t0 ts hu
    simpa using hu
  | cons c t' ih =>
    intro u t0 ts hu
    have hc : c ≠ '-' := h c (List.mem_cons_self c t')
    rw [List.cons_append]
    rw [splitHyphen_cons_ne hc (ih (fun d hd => h d (List.mem_cons_of_mem c hd)) hu)]
    simp

theorem splitHyphen_no_hyphen {t : List Char} (h : ∀ c ∈ t, c ≠ '-') :
    splitHyphen t = [t] := by
  have h0 : splitHyphen ([] : List Char) = [] :: [] := by simp [splitHyphen]
  have := splitHyphen_append_no_hyphen h h0
  simpa using this

/-- Re-splitting hyphen-joined hyphen-free tokens recovers the tokens. -/
theorem splitHyphen_intercalate : ∀ ts : List (List Char), ts ≠ [] →
    (∀ t ∈ ts, ∀ c ∈ t, c ≠ '-') →
    splitHyphen (List.intercalate ['-'] ts) = ts := by
  intro ts
  induction ts with
  | nil => intro hne; exact absurd rfl hne
  | cons t ts' ih =>
    intro _ hh
    cases ts' with
    | nil =>
      have : List.intercalate ['-'] [t] = t := by simp [List.intercalate]
      rw [this]
      exact splitHyphen_no_hyphen (hh t (List.mem_cons_self t []))
    | cons t2 ts2 =>
      have e1 : List.intercalate ['-'] (t :: t2 :: ts2)
          = t ++ '-' :: List.intercalate ['-'] (t2 :: ts2) := by
        simp [List.intercalate, List.intersperse]
      rw [e1]
      have h2 : splitHyphen ('-' :: List.intercalate ['-'] (t2 :: ts2))
          = [] :: (t2 :: ts2) := by
        rw [splitHyphen_cons_hyphen,
          ih (by simp) (fun x hx => hh x (List.mem_cons_of_mem t hx))]
      have := splitHyphen_append_no_hyphen (hh t (List.mem_cons_self t _)) h2
      simpa using this

theorem alpha_ne_hyphen {c : Char} (h : isAsciiAlpha c = true) : c ≠ '-' := by
  intro he
  subst he
  exact absurd h (by decide)

theorem pyCapitalize_alpha {t : List Char} (h : ∀ c ∈ t, isAsciiAlpha c = true) :
    ∀ c ∈ pyCapitalize t, isAsciiAlpha c = true := by
  cases t with
  | nil => intro c hc; exact absurd hc (by simp [pyCapitalize])
  | cons a t' =>
    intro c hc
    simp only [pyCapitalize, List.mem_cons] at hc
    rcases hc with rfl | hc2
    · rw [alpha_toUpper]
      exact h a (List.mem_cons_self a t')
    · obtain ⟨d, hd, rfl⟩ := List.mem_map.mp hc2
      rw [alpha_toLower]
      exact h d (List.mem_cons_of_mem a hd)

/-- All characters of a canonical token are ASCII letters, when the token's
characters are. -/
theorem cap_header_alpha {t : List Char} (h : ∀ c ∈ t, isAsciiAlpha c = true) :
    ∀ c ∈ cap_header t, isAsciiAlpha c = true := by
  unfold cap_header
  by_cases h1 : pyLowerStr t = "www".data
  · rw [if_pos h1]
    decide
  rw [if_neg h1]
  by_cases h2 : pyLowerStr t = "etag".data
  · rw [if_pos h2]
    decide
  rw [if_neg h2]
  rw [capwords_no_ws (fun c hc => not_ws_of_alpha (h c hc))]
  exact pyCapitalize_alpha h

theorem pyLowerStr_pyCapitalize (t : List Char) :
    pyLowerStr (pyCapitalize t) = pyLowerStr t := by
  cases t with
  | nil => rfl
  | cons c cs =>
    simp only [pyCapitalize, pyLowerStr, List.map_cons, List.map_map]
    rw [toLower_toUpper]
    congr 1
    apply List.map_congr_left
    intro a _
    exact toLower_toLower a

theorem pyCapitalize_idem (t : List Char) :
    pyCapitalize (pyCapitalize t) = pyCapitalize t := by
  cases t with
  | nil => rfl
  | cons c cs =>
    simp only [pyCapitalize, List.map_map]
    rw [toUpper_toUpper]
    congr 1
    apply List.map_congr_left
    intro a _
    exact toLower_toLower a

/-- Canonicalizing a token of ASCII letters twice is the same as once. -/
theorem cap_header_idem {t : List Char} (h : ∀ c ∈ t, isAsciiAlpha c = true) :
    cap_header (cap_header t) = cap_header t := by
  by_cases h1 : pyLowerStr t = "www".data
  · have hct : cap_header t = "WWW".data := by
      rw [cap_header, if_pos h1]
    rw [hct]
    decide
  by_cases h2 : pyLowerStr t = "etag".data
  · have hct : cap_header t = "ETag".data := by
      rw [cap_header, if_neg h1, if_pos h2]
    rw [hct]
    decide
  have hcw : cap_header t = pyCapitalize t := by
    rw [cap_header, if_neg h1, if_neg h2]
    exact capwords_no_ws (fun c hc => not_ws_of_alpha (h c hc))
  rw [hcw]
  have hl : pyLowerStr (pyCapitalize t) = pyLowerStr t := pyLowerStr_pyCapitalize t
  rw [cap_header, hl, if_neg h1, if_neg h2]
  rw [capwords_no_ws (fun c hc => not_ws_of_alpha (pyCapitalize_alpha h c hc))]
  exact pyCapitalize_idem t

/-- Tokens obtained by splitting a letters-and-hyphens name are all-letters. -/
theorem tokens_alpha {name : List Char}
    (h : ∀ c ∈ name, isAsciiAlpha c = true ∨ c = '-') :
    ∀ t ∈ splitHyphen name, ∀ c ∈ t, isAsciiAlpha c = true := by
  intro t ht c hc
  obtain ⟨h1, h2⟩ := mem_splitHyphen ht c hc
  rcases h c h1 with h3 | h3
  · exact h3
  · exact absurd h3 h2

/-- The canonical display name of a letters-and-hyphens header is a fixed
point of canonicalization. -/
theorem canonHeader_idem {name : List Char}
    (h : ∀ c ∈ name, isAsciiAlpha c = true ∨ c = '-') :
    canonHeader (canonHeader name) = canonHeader name := by
  have hta := tokens_alpha h
  have hsp : splitHyphen (canonHeader name) = (splitHyphen name).map cap_header := by
    unfold canonHeader
    apply splitHyphen_intercalate
    · simp [splitHyphen_ne_nil name]
    · intro t ht c hc
      obtain ⟨t0, ht0, rfl⟩ := List.mem_map.mp ht
      exact alpha_ne_hyphen (cap_header_alpha (hta t0 ht0) c hc)
  conv_lhs => rw [canonHeader, hsp]
  rw [List.map_map]
  unfold canonHeader
  congr 1
  apply List.map_congr_left
  intro t ht
  exact cap_header_idem (hta t ht)

theorem headerSub_cons_none {c : Char} {cs : List Char}
    (hm : matchHeaderAt (c :: cs) = none) :
    headerSub (c :: cs) = c :: headerSub cs :=
  reSubHeader_cons_none hm

/-- A line on which the pattern matches nowhere is left unchanged. -/
theorem headerSub_of_no_match : ∀ {s : List Char}, hasHeaderMatch s = false →
    headerSub s = s := by
  intro s
  induction s with
  | nil => intro _; rfl
  | cons c cs ih =>
    intro h
    cases hm : matchHeaderAt (c :: cs) with
    | some p =>
      rw [hasHeaderMatch, hm] at h
      simp at h
    | none =>
      rw [hasHeaderMatch, hm] at h
      simp only [Option.isSome_none, Bool.false_or] at h
      rw [headerSub_cons_none hm, ih h]

/-- Modelled from the spec's words (claim C1): the irregular cases "www" and
"etag" compared case-insensitively, otherwise first letter upper-cased and
the remainder lower-cased. -/
def capTokenSpec (t : List Char) : List Char :=
  if pyLowerStr t = "www".data then "WWW".data
  else if pyLowerStr t = "etag".data then "ETag".data
  else
    match t with
    | [] => []
    | c :: cs => Char.toUpper c :: cs.map Char.toLower

/-- Modelled from the spec's words (claim C1): split the name on hyphens,
map each token through the token rule, rejoin with hyphens. -/
def canonSpec (name : List Char) : List Char :=
  List.intercalate ['-'] ((splitHyphen name).map capTokenSpec)

/-- C1: the canonicalization splits on hyphens, capitalizes each token
except the case-insensitive irregulars "www" ↦ "WWW" and "etag" ↦ "ETag",
and rejoins with hyphens; in particular content-type ↦ Content-Type,
etag ↦ ETag and www-authenticate ↦ WWW-Authenticate. -/
theorem c1_canonicalization :
    (∀ name : List Char, (∀ c ∈ name, isAsciiAlpha c = true ∨ c = '-') →
      canonHeader name = canonSpec name) ∧
    canonHeader "content-type".data = "Content-Type".data ∧
    canonHeader "etag".data = "ETag".data ∧
    canonHeader "www-authenticate".data = "WWW-Authenticate".data := by
  refine ⟨?_, by decide, by decide, by decide⟩
  intro name h
  unfold canonHeader canonSpec
  congr 1
  apply List.map_congr_left
  intro t ht
  have hta := tokens_alpha h t ht
  unfold cap_header capTokenSpec
  by_cases h1 : pyLowerStr t = "www".data
  · rw [if_pos h1, if_pos h1]
  rw [if_neg h1, if_neg h1]
  by_cases h2 : pyLowerStr t = "etag".data
  · rw [if_pos h2, if_pos h2]
  rw [if_neg h2, if_neg h2]
  rw [capwords_no_ws (fun c hc => not_ws_of_alpha (hta c hc))]
  cases t <;> rfl

theorem c1_canonicalization_witness :
    canonHeader "x-forwarded-for".data = canonSpec "x-forwarded-for".data :=
  c1_canonicalization.1 "x-forwarded-for".data (by decide)

/-- C2: on every line, the substitution replaces each substring matching the
header-name literal pattern followed by `");` by the same literal with the
matched name lower-cased, keeping the surrounding text intact. -/
theorem c2_lowercasing_substitution (line : List Char) :
    headerSub line = headerSubSpec line :=
  headerSub_eq_spec line

/-- C3: running the whole-file normalization a second time on its own
output changes nothing. -/
theorem c3_normalize_file_idempotent (content : List Char) :
    (replace_header_names ((replace_header_names content).1)).1
      = (replace_header_names content).1 := by
  unfold replace_header_names
  simp only [processLines_fst]
  rw [splitLines_flatten _ (wfLines_map_headerSub _ (wfLines_splitLines content))]
  rw [List.map_map]
  congr 1
  apply List.map_congr_left
  intro l _
  exact headerSub_idem l

/-- The concrete line `b"abc");` of the counterexample to claim C4. -/
def cexC4 : List Char := "b\"abc\");".data

/-- C4 counterexample: on the line `b"abc");` the pattern matches (at the
very beginning) and the substitution fires, rewriting the already-lowercase
name to itself; yet the boolean reported by the per-line step is `false`,
because it is computed as `line != new_line`. -/
theorem c4_counterexample :
    matchHeaderAt cexC4 ≠ none ∧ (processLine cexC4).2 = false := by
  constructor
  · decide
  · decide

/-- C4 (amended): the boolean is true exactly when the substitution pass
textually changed the line; a match whose lower-cased replacement equals
the matched text fires a substitution but does not set the flag. -/
theorem c4_changed_flag (line : List Char) :
    (processLine line).2 = true ↔ headerSubSpec line ≠ line := by
  unfold processLine
  simp only [decide_eq_true_eq]
  rw [headerSub_eq_spec]
  exact ne_comm

/-- The concrete one-line file `  b"A");` of the counterexample to C5. -/
def cexC5 : List Char := "  b\"A\");".data

/-- C5 counterexample: the single line `  b"A");` (with leading blanks) is
changed to `  b"a");`, but the emitted diagnostic line is `b"a");` — Python
`strip()` removes the leading whitespace as well, so the emitted text is
not the modified line trimmed of trailing whitespace only. -/
theorem c5_counterexample :
    (replace_header_names cexC5).1 = "  b\"a\");".data ∧
    (replace_header_names cexC5).2 ≠ [rstripOnly "  b\"a\");".data] := by
  constructor
  · decide
  · decide

/-- C5 (amended): whenever the per-line step changes a line, the modified
line trimmed of leading and trailing whitespace is emitted to the
diagnostic stream; over a whole run the emitted lines are exactly the
changed lines, in order, one emission per changed line, and unchanged lines
are never emitted. -/
theorem c5_diagnostic_stream (content : List Char) :
    (replace_header_names content).2 =
      ((splitLines content).filter (fun l => decide (l ≠ headerSub l))).map
        (fun l => pyStrip (headerSub l)) := by
  unfold replace_header_names
  exact processLines_snd (splitLines content)

/-- C6: canonicalization is idempotent on names made of letters and
hyphens. -/
theorem c6_canonicalize_idem (name : List Char)
    (h : ∀ c ∈ name, isAsciiAlpha c = true ∨ c = '-') :
    canonHeader (canonHeader name) = canonHeader name :=
  canonHeader_idem h

theorem c6_canonicalize_idem_witness :
    canonHeader (canonHeader "wWw-AuThEnTiCaTe".data) = canonHeader "wWw-AuThEnTiCaTe".data :=
  c6_canonicalize_idem "wWw-AuThEnTiCaTe".data (by decide)

/-- C7: the normalized file has exactly one line per input line, in the
original order; each output line is the substituted input line, and position
by position it only keeps or lower-cases characters of the input line. -/
theorem c7_lines_preserved (content : List Char) :
    (splitLines ((replace_header_names content).1)).length
        = (splitLines content).length ∧
    List.Forall₂ (fun l l' => l' = headerSub l ∧ List.Forall₂ caseRel l l')
      (splitLines content) (splitLines ((replace_header_names content).1)) := by
  have h1 : (replace_header_names content).1
      = ((splitLines content).map headerSub).flatten := by
    unfold replace_header_names
    simp only [processLines_fst]
  have h2 : List.Forall₂ (fun l l' => l' = headerSub l ∧ List.Forall₂ caseRel l l')
      (splitLines content) ((splitLines content).map headerSub) := by
    induction splitLines content with
    | nil => exact List.Forall₂.nil
    | cons l ls ih => exact List.Forall₂.cons ⟨rfl, forall2_headerSub l⟩ ih
  rw [h1, splitLines_flatten _ (wfLines_map_headerSub _ (wfLines_splitLines content))]
  exact ⟨(h2.length_eq).symm, h2⟩

/-- Modelled from the spec's words (claim C8): the canonical display name
with every letter upper-cased and every other character (in particular the
hyphens) preserved. -/
def upperFormSpec (s : List Char) : List Char :=
  s.map (fun c => if isAsciiAlpha c then Char.toUpper c else c)

/-- C8: `make_header` pairs the canonical display name with the literal
`", b"` separator and its derived uppercase form; the derivation upper-cases
every letter and preserves everything else, and maps Content-Type to
CONTENT-TYPE. -/
theorem c8_upper_derivation :
    (∀ name : List Char, make_header name =
      canonHeader name ++ ('"' :: ',' :: ' ' :: 'b' :: '"' :: []) ++
        (canonHeader name).map Char.toUpper) ∧
    (∀ s : List Char, s.map Char.toUpper = upperFormSpec s) ∧
    "Content-Type".data.map Char.toUpper = "CONTENT-TYPE".data := by
  refine ⟨fun name => rfl, ?_, by decide⟩
  intro s
  unfold upperFormSpec
  apply List.map_congr_left
  intro c _
  by_cases h : isAsciiAlpha c = true
  · rw [if_pos h]
  · rw [if_neg h]
    apply toUpper_of_not_lower
    intro hc
    apply h
    rw [isAsciiAlpha_iff]
    omega

/-- C9: a line on which neither the header-name literal pattern nor the
character-literal pattern matches anywhere is returned unchanged and
reported as unchanged. -/
theorem c9_no_match_no_change (line : List Char)
    (h1 : hasHeaderMatch line = false) (_h2 : hasCharLitMatch line = false) :
    processLine line = (line, false) := by
  have hs : headerSub line = line := headerSub_of_no_match h1
  unfold processLine
  rw [hs]
  simp

theorem c9_no_match_no_change_witness :
    processLine "let x = b\"foo\" ;".data = ("let x = b\"foo\" ;".data, false) :=
  c9_no_match_no_change "let x = b\"foo\" ;".data (by decide) (by decide)

/-- C10: the per-line step only ever keeps or lower-cases characters, and
every single-character literal `b'x'` with `x` a small letter that occurs
in the input line still occurs, unchanged, at the same position of the
output line — the character-literal upper-casing pass never runs. -/
theorem c10_char_literals_untouched :
    (∀ s : List Char, List.Forall₂ caseRel s (headerSub s)) ∧
    (∀ (s : List Char) (i : Nat) (c : Char), 97 ≤ c.toNat → c.toNat ≤ 122 →
      ('b' :: '\'' :: c :: '\'' :: []).isPrefixOf (s.drop i) = true →
      ('b' :: '\'' :: c :: '\'' :: []).isPrefixOf ((headerSub s).drop i) = true) := by
  refine ⟨forall2_headerSub, ?_⟩
  intro s i c h1 h2 hp
  apply forall2_keeps_fixed_prefixes (List.forall₂_drop i (forall2_headerSub s)) ?_ hp
  intro a ha
  simp only [List.mem_cons, List.mem_singleton, List.not_mem_nil, or_false] at ha
  rcases ha with rfl | rfl | rfl | rfl
  · decide
  · decide
  · exact toLower_of_not_upper (by omega)
  · decide

theorem c10_char_literals_untouched_witness :
    ('b' :: '\'' :: 'a' :: '\'' :: []).isPrefixOf
      ((headerSub "b'a' + b\"XY\");".data).drop 0) = true :=
  c10_char_literals_untouched.2 "b'a' + b\"XY\");".data 0 'a' (by decide) (by decide) (by decide)
